import Mathlib

/-!
Verification of the dalymi scheduling and execution engine
(src/dalymi/pipeline.py and src/dalymi/resources.py) against its
natural-language specification.

Shallow embedding conventions.

The engine coordinates exclusively through artifact existence: the run
loop and the undo subsystem only ever call `resource._check(context)`,
which resolves the location template against the fixed run context and
asks the store whether the artifact exists.  For a fixed context each
resource therefore contributes one boolean, so at the scheduler level we
identify a resource with its name (`RName`) and model the live artifact
state as the finite set of names whose artifacts currently exist.

Python dictionaries preserve insertion order, so `Pipeline.tasks` is
modelled as a `List Task` of the dictionary values in insertion order.
Python sets expose an arbitrary but concrete iteration order; where the
source iterates over a set we iterate over a list enumeration of it, and
every result proved about such an iteration is order independent.  Sets
whose identity matters only up to membership (the run-loop bookkeeping
sets, the visited sets of the graph traversals) are `Finset`s.

Raising an exception is modelled with `Except`/`Option`, or, for code
whose partial side effects matter, by returning the state reached so far
together with an optional error.
-/

deriving instance DecidableEq for Except

namespace Dalymi

/-- Resource names at the scheduler level. -/
abbrev RName := String

/-- `Task.__init__`: a task has the name of its wrapped function and
input/output resource sets (Python sets, initially empty), kept here as
lists enumerating those sets. -/
structure Task where
  name : String
  input : List RName
  output : List RName
deriving DecidableEq

/-- `Task.complete`: `all([resource._check(context) for resource in self.output])`.
The state `s` is the set of resource names whose artifacts exist for the
fixed run context. -/
def Task.complete (t : Task) (s : Finset RName) : Bool :=
  t.output.all fun r => decide (r ∈ s)

/-- `Task.ready`: `all([resource._check(context) for resource in self.input])`. -/
def Task.ready (t : Task) (s : Finset RName) : Bool :=
  t.input.all fun r => decide (r ∈ s)

/-- `Task.add_input`: raises `ValueError` when `self.input` is truthy
(non-empty), otherwise `self.input.update(input)`.  The raise happens
before any mutation, so the error case returns the task unchanged. -/
def Task.add_input (t : Task) (inp : List RName) : Task × Option String :=
  if t.input = [] then ({ t with input := t.input ++ inp }, none)
  else (t, some ("Task <" ++ t.name ++ "> already has input defined."))

/-- `Task.add_output`: symmetric to `Task.add_input`. -/
def Task.add_output (t : Task) (out : List RName) : Task × Option String :=
  if t.output = [] then ({ t with output := t.output ++ out }, none)
  else (t, some ("Task <" ++ t.name ++ "> already has output defined."))

/-- `Task.undo`: for every output resource that currently exists, delete
it.  Net effect on the artifact state: remove the existing outputs. -/
def Task.undo (t : Task) (s : Finset RName) : Finset RName :=
  s \ t.output.toFinset

/-- `Pipeline.__init__`: `self.tasks = {}`, a name-keyed dict; we keep
its values in insertion order. -/
structure Pipeline where
  tasks : List Task
deriving DecidableEq

/-- `Pipeline.get_completed`: all tasks of the whole pipeline that are
complete (the source iterates over `self.tasks.values()`, not over the
closure of the current run). -/
def Pipeline.get_completed (p : Pipeline) (s : Finset RName) : List Task :=
  p.tasks.filter fun t => t.complete s

/-- `Pipeline.get_ready`: all tasks of the whole pipeline that are ready. -/
def Pipeline.get_ready (p : Pipeline) (s : Finset RName) : List Task :=
  p.tasks.filter fun t => t.ready s

/-- `set(self.get_completed(context))` in the run loop. -/
def completedSet (p : Pipeline) (s : Finset RName) : Finset Task :=
  (p.get_completed s).toFinset

/-- `set(ready)` in the run loop. -/
def readySet (p : Pipeline) (s : Finset RName) : Finset Task :=
  (p.get_ready s).toFinset

/-- `to_start = (set(to_complete) - set(completed)) & set(ready)`. -/
def toStart (p : Pipeline) (toComplete : Finset Task) (s : Finset RName) : Finset Task :=
  (toComplete \ completedSet p s) ∩ readySet p s

/-- Parallel mode: `to_start -= submitted` before submission to the pool. -/
def toSubmit (p : Pipeline) (toComplete : Finset Task) (s : Finset RName)
    (submitted : Finset Task) : Finset Task :=
  toStart p toComplete s \ submitted

/-- Outcome of one iteration of the sequential run loop body. -/
inductive StepOutcome where
  | finished
  | runsTask
  | indexError
deriving DecidableEq

/-- One iteration of the sequential run loop of `Pipeline.run`:
if `set(completed) == set(to_complete)` the loop breaks; otherwise
`to_run = tuple(to_start)[0]` runs some task of `to_start` (arbitrary
set order), raising `IndexError` when `to_start` is empty. -/
def runStep (p : Pipeline) (toComplete : Finset Task) (s : Finset RName) : StepOutcome :=
  if completedSet p s = toComplete then .finished
  else if toStart p toComplete s = ∅ then .indexError
  else .runsTask

/-- Result of `Pipeline.get_producer`: the first registered task whose
output contains the resource, a `ValueError` whose message interpolates
the name of the task the loop variable last held, or (when the pipeline
holds no task at all, so the loop variable was never bound) an
`UnboundLocalError`. -/
inductive ProducerResult where
  | found (t : Task)
  | valueError (taskName : String)
  | nameError
deriving DecidableEq

/-- The search loop of `Pipeline.get_producer`. -/
def producerFind (p : Pipeline) (r : RName) : Option Task :=
  p.tasks.find? fun t => decide (r ∈ t.output)

/-- `Pipeline.get_producer`: return the first producing task; when the
loop falls through, `raise ValueError(... task.func.__name__ ...)` reads
the loop variable, which holds the last task iterated, and is unbound on
an empty pipeline. -/
def Pipeline.get_producer (p : Pipeline) (r : RName) : ProducerResult :=
  match producerFind p r with
  | some t => .found t
  | none =>
    match p.tasks.getLast? with
    | some t => .valueError t.name
    | none => .nameError

/-- `Pipeline.get_consumers`: all tasks declaring the resource as input. -/
def Pipeline.get_consumers (p : Pipeline) (r : RName) : List Task :=
  p.tasks.filter fun t => decide (r ∈ t.input)

/-- `set(chain(*[self.get_consumers(resource) for resource in task.output]))`
in `Pipeline.get_downstream`, enumerated as a deduplicated list. -/
def Pipeline.consumersOfOutputs (p : Pipeline) (t : Task) : List Task :=
  (t.output.flatMap fun r => p.get_consumers r).dedup

/-- `set([self.get_producer(resource) for resource in task.input])` in
`Pipeline.get_upstream`; `get_producer` raises when some input resource
has no producer, modelled by `none`. -/
def Pipeline.producersOfInputs (p : Pipeline) (t : Task) : Option (List Task) :=
  (t.input.mapM fun r => producerFind p r).map List.dedup

/-- How a recursive graph traversal can fail: it can exhaust its fuel
(modelling unbounded recursion in the source, which never consults the
visited set before re-expanding a node), or `get_producer` can raise. -/
inductive TravErr where
  | fuelOut
  | producerError
deriving DecidableEq

/-- The shared recursion scheme of `Pipeline.get_upstream` and
`Pipeline.get_downstream`: compute the neighbour set of the current
task, add it to the accumulator `already_found` (which the recursion
threads through, modelling the mutated Python set object), then recurse
into every neighbour.  Fuel bounds the recursion depth; the source has
no such bound, so exhausted fuel at every depth models divergence. -/
def traverseAux (next : Task → Option (List Task)) :
    Nat → Task → Finset Task → Except TravErr (Finset Task)
  | 0, _, _ => .error .fuelOut
  | n + 1, t, acc =>
    match next t with
    | none => .error .producerError
    | some ns => ns.foldlM (fun a c => traverseAux next n c a) (acc ∪ ns.toFinset)

/-- Neighbour function of `Pipeline.get_upstream`. -/
def upNext (p : Pipeline) : Task → Option (List Task) :=
  fun t => p.producersOfInputs t

/-- Neighbour function of `Pipeline.get_downstream` (total: consumer
lookup cannot raise). -/
def downNext (p : Pipeline) : Task → Option (List Task) :=
  fun t => some (p.consumersOfOutputs t)

/-- `Pipeline.get_upstream` with explicit fuel and visited set. -/
def Pipeline.get_upstream (p : Pipeline) (n : Nat) (t : Task) (acc : Finset Task) :
    Except TravErr (Finset Task) :=
  traverseAux (upNext p) n t acc

/-- `Pipeline.get_downstream` with explicit fuel and visited set. -/
def Pipeline.get_downstream (p : Pipeline) (n : Nat) (t : Task) (acc : Finset Task) :
    Except TravErr (Finset Task) :=
  traverseAux (downNext p) n t acc

/-- One edge of the traversal graph: `b` is among the neighbours the
traversal computes for `a`. -/
def nextEdge (next : Task → Option (List Task)) (a b : Task) : Prop :=
  ∃ ns, next a = some ns ∧ b ∈ ns

/-- Reachability in one or more edges. -/
def ReachVia (next : Task → Option (List Task)) : Task → Task → Prop :=
  Relation.TransGen (nextEdge next)

/-- The source calls `get_upstream` and `get_downstream` without fuel;
they terminate exactly when some finite recursion depth suffices. -/
def UpstreamTerminates (p : Pipeline) (t : Task) : Prop :=
  ∃ n s, p.get_upstream n t ∅ = .ok s

/-!
Detailed resource model (src/dalymi/resources.py).

`Resource` carries a location template (a `str.format` template over the
run context) and a list of integrity assertions.  An assertion is an
arbitrary predicate on the in-memory data; in Python it raises on
violation, modelled here as returning `false`.  The artifact store is an
association list from resolved paths to data.
-/

/-- One piece of a `str.format` location template: literal text or a
placeholder key looked up in the context. -/
inductive LocPart where
  | lit (s : String)
  | hole (key : String)
deriving DecidableEq

/-- The run context used to resolve location templates. -/
abbrev Context := List (String × String)

/-- `self.loc.format(**context)`: substitute every placeholder, raising
`KeyError` (modelled by `none`) when a key is missing from the context. -/
def formatLoc : List LocPart → Context → Option String
  | [], _ => some ""
  | .lit s :: rest, ctx => (formatLoc rest ctx).map fun tail => s ++ tail
  | .hole k :: rest, ctx =>
    match ctx.lookup k with
    | none => none
    | some v => (formatLoc rest ctx).map fun tail => v ++ tail

/-- Exceptions the resource layer can raise. -/
inductive RErr where
  | assertionFailed
  | keyError
  | fileNotFound
deriving DecidableEq

/-- `Resource.__init__`: name, location template and integrity
assertions. -/
structure Resource (D : Type) where
  name : String
  loc : List LocPart
  assertions : List (D → Bool)

/-- The artifact store: resolved path to stored data. -/
abbrev FS (D : Type) := List (String × D)

/-- Writing an artifact at a path. -/
def fsWrite (fs : FS D) (path : String) (d : D) : FS D :=
  (path, d) :: fs

/-- Reading an artifact at a path, `none` when absent. -/
def fsRead (fs : FS D) (path : String) : Option D :=
  (fs.find? fun e => decide (e.1 = path)).map Prod.snd

/-- `Resource.assert_integrity`: run every assertion on the data; the
Python loop raises at the first violated assertion, so the call succeeds
iff all assertions hold. -/
def Resource.assert_integrity (r : Resource D) (d : D) : Bool :=
  r.assertions.all fun a => a d

/-- `Resource._save`: `self.assert_integrity(data)` first, then resolve
the path, then `self.save(path, data)`.  Effects persist up to the point
a statement raises, so the result carries the store reached so far. -/
def Resource.saveOp (r : Resource D) (data : D) (ctx : Context) (fs : FS D) :
    FS D × Option RErr :=
  if r.assert_integrity data = false then (fs, some .assertionFailed)
  else
    match formatLoc r.loc ctx with
    | none => (fs, some .keyError)
    | some path => (fsWrite fs path data, none)

/-- `Resource._load`: resolve the path, `self.load(path)` (raising when
the artifact is absent), then `self.assert_integrity(data)` before the
data is returned. -/
def Resource.loadOp (r : Resource D) (ctx : Context) (fs : FS D) : Except RErr D :=
  match formatLoc r.loc ctx with
  | none => .error .keyError
  | some path =>
    match fsRead fs path with
    | none => .error .fileNotFound
    | some data =>
      if r.assert_integrity data = false then .error .assertionFailed
      else .ok data

/-- A Python return value as seen by the output-decorator wrapper:
either a tuple or a single non-tuple value. -/
inductive PyRet (D : Type) where
  | single (v : D)
  | tuple (vs : List D)

/-- `if not isinstance(results, tuple): results = (results,)`. -/
def wrapResults : PyRet D → List D
  | .single v => [v]
  | .tuple vs => vs

/-- The save loop of the output-decorator wrapper:
`for resource, result in zip(task.output, results): resource._save(result, context)`,
stopping at the first raised exception with the store reached so far. -/
def saveZipped : List (Resource D × D) → Context → FS D → FS D × Option RErr
  | [], _, fs => (fs, none)
  | (r, v) :: rest, ctx, fs =>
    match r.saveOp v ctx fs with
    | (fs', none) => saveZipped rest ctx fs'
    | (fs', some e) => (fs', some e)

/-- The whole save phase of `func_wrapped` in `Pipeline.output`: wrap a
non-tuple result, then zip the declared outputs with the results (the
zip silently truncates to the shorter of the two) and save each pair. -/
def outputWrapperRun (outputs : List (Resource D)) (ret : PyRet D) (ctx : Context)
    (fs : FS D) : FS D × Option RErr :=
  saveZipped (outputs.zip (wrapResults ret)) ctx fs

/-- The store after writing the data of each pair at its resolved path,
skipping pairs whose location does not resolve. -/
def writeListFS : List (Resource D × D) → Context → FS D → FS D
  | [], _, fs => fs
  | (r, v) :: rest, ctx, fs =>
    match formatLoc r.loc ctx with
    | some path => writeListFS rest ctx (fsWrite fs path v)
    | none => writeListFS rest ctx fs

/-!
Undo subsystem (`Pipeline.undo`, `Task.undo`).
-/

/-- `for task_instance in to_undo: task_instance.undo(context)`. -/
def undoTasks (L : List Task) (s : Finset RName) : Finset RName :=
  L.foldl (fun st t => t.undo st) s

/-- Exceptions `Pipeline.undo` can raise: `self.tasks[task]` on an
unknown name, or divergence of the downstream traversal. -/
inductive UndoErr where
  | keyError
  | travError
deriving DecidableEq

/-- `self.tasks[task]`, raising `KeyError` when absent. -/
def lookupTask (p : Pipeline) (name : String) : Option Task :=
  p.tasks.find? fun t => decide (t.name = name)

/-- The undo loop iterated over a Python set of tasks.  Set iteration
order is arbitrary and the per-task effect commutes, so the loop is
modelled by its net effect; `undoTasksSet_eq_undoTasks` below proves
that any list enumeration of the set run through the literal loop
produces exactly this state. -/
def undoTasksSet (ts : Finset Task) (s : Finset RName) : Finset RName :=
  s \ ts.biUnion fun t => t.output.toFinset

/-- `Pipeline.undo`: compute `to_undo` from the task argument and the
downstream flag, then undo every task in it.  A fresh process starts
with an empty `already_found` default for `get_downstream`. -/
def Pipeline.undoRun (p : Pipeline) (task : Option String) (downstream : Bool)
    (fuel : Nat) (s : Finset RName) : Except UndoErr (Finset RName) :=
  match task with
  | some x =>
    match lookupTask p x with
    | none => .error .keyError
    | some ti =>
      if downstream then
        match p.get_downstream fuel ti ∅ with
        | .ok ds => .ok (undoTasksSet (insert ti ds) s)
        | .error _ => .error .travError
      else .ok (undoTasks [ti] s)
  | none => .ok (undoTasks p.tasks s)

/-- The spec describes the undo target set as: the named task plus, with
the downstream flag, every task reachable from it via consumer edges;
all tasks when no name is given.  This definition follows the words of
the spec, to be compared against the behaviour of `Pipeline.undoRun`. -/
def specUndoSet (p : Pipeline) (task : Option String) (downstream : Bool) : Set Task :=
  match task with
  | some x =>
    match lookupTask p x with
    | none => ∅
    | some ti =>
      if downstream then insert ti { u | ReachVia (downNext p) ti u } else {ti}
  | none => { t | t ∈ p.tasks }

/-!
Model of the shared mutable default argument of `get_upstream`
(`already_found=set()` evaluated once at definition time): a top-level
call without an explicit visited set starts from whatever the previous
such call accumulated, because `set.update` mutates the default object
in place and the function returns that same object.  In a fresh process
the default is empty, so two successive top-level calls compose as
follows. -/

/-- Two successive top-level calls of `get_upstream` without an explicit
visited set: the first starts from the pristine empty default, the
second from the set the first call returned. -/
def get_upstream_default_twice (p : Pipeline) (fuel : Nat) (t1 t2 : Task) :
    Except TravErr (Finset Task × Finset Task) :=
  match p.get_upstream fuel t1 ∅ with
  | .error e => .error e
  | .ok r1 =>
    match p.get_upstream fuel t2 r1 with
    | .error e => .error e
    | .ok r2 => .ok (r1, r2)

/-!
Concrete fixtures used by counterexamples and witnesses.
-/

/-- A source task producing artifact r1. -/
def exA : Task := ⟨"a", [], ["r1"]⟩

/-- A second, independent source task producing artifact r2. -/
def exB : Task := ⟨"b", [], ["r2"]⟩

/-- A pipeline of two independent source tasks. -/
def exP : Pipeline := ⟨[exA, exB]⟩

/-- A state in which both artifacts exist. -/
def exS : Finset RName := {"r1", "r2"}

/-- Half of a two-task producer cycle: consumes r2, produces r1. -/
def cycA : Task := ⟨"a", ["r2"], ["r1"]⟩

/-- The other half: consumes r1, produces r2. -/
def cycB : Task := ⟨"b", ["r1"], ["r2"]⟩

/-- A pipeline whose producer graph is a two-cycle. -/
def cycP : Pipeline := ⟨[cycA, cycB]⟩

/-- Source task of the acyclic fetch-clean pipeline. -/
def acF : Task := ⟨"fetch", [], ["raw"]⟩

/-- Consumer task of the acyclic fetch-clean pipeline. -/
def acC : Task := ⟨"clean", ["raw"], ["prepared"]⟩

/-- The acyclic fetch-clean pipeline. -/
def acP : Pipeline := ⟨[acF, acC]⟩

/-- Rank certificate for upstream traversal of `acP`. -/
def acRankU : Task → Nat := fun t => if t.name = "fetch" then 0 else 1

/-- Rank certificate for downstream traversal of `acP`. -/
def acRankD : Task → Nat := fun t => if t.name = "clean" then 0 else 1

/-- A terminal consumer: inputs but no outputs. -/
def termT : Task := ⟨"report", ["prepared"], []⟩

/-- Decidable acyclicity certificate for the upstream traversal of a
pipeline: every task has a producer for each of its inputs, and all
those producers are pipeline tasks of strictly smaller rank. -/
def upRankOk (p : Pipeline) (rank : Task → Nat) : Bool :=
  p.tasks.all fun t =>
    match p.producersOfInputs t with
    | none => false
    | some ns => ns.all fun u => decide (u ∈ p.tasks) && decide (rank u < rank t)

/-- Decidable acyclicity certificate for the downstream traversal. -/
def downRankOk (p : Pipeline) (rank : Task → Nat) : Bool :=
  p.tasks.all fun t =>
    (p.consumersOfOutputs t).all fun u => decide (u ∈ p.tasks) && decide (rank u < rank t)

/-- The pipelines of the `default_visited_leaks` witness: two disjoint
producer-consumer pairs. -/
def w9pa : Task := ⟨"pa", [], ["a"]⟩

/-- Consumer of artifact a. -/
def w9t1 : Task := ⟨"t1", ["a"], ["b"]⟩

/-- Producer of artifact c, unrelated to w9t1. -/
def w9pb : Task := ⟨"pb", [], ["c"]⟩

/-- Consumer of artifact c, unrelated to w9t1. -/
def w9t2 : Task := ⟨"t2", ["c"], ["d"]⟩

/-- Pipeline with two disjoint producer-consumer chains. -/
def w9P : Pipeline := ⟨[w9pa, w9t1, w9pb, w9t2]⟩

/-- A resource whose single assertion requires its data to be zero. -/
def rFail : Resource Nat := ⟨"res", [.lit "p"], [fun d => decide (d = 0)]⟩

/-- First declared output of the arity counterexample task. -/
def raOut : Resource Nat := ⟨"ra", [.lit "a.csv"], []⟩

/-- Second declared output of the arity counterexample task. -/
def rbOut : Resource Nat := ⟨"rb", [.lit "b.csv"], []⟩

theorem complete_iff {t : Task} {s : Finset RName} :
    t.complete s = true ↔ ∀ r ∈ t.output, r ∈ s := by
  simp [Task.complete]

theorem ready_iff {t : Task} {s : Finset RName} :
    t.ready s = true ↔ ∀ r ∈ t.input, r ∈ s := by
  simp [Task.ready]

theorem mem_completedSet {p : Pipeline} {s : Finset RName} {t : Task} :
    t ∈ completedSet p s ↔ t ∈ p.tasks ∧ t.complete s = true := by
  simp [completedSet, Pipeline.get_completed, List.mem_filter]

theorem mem_readySet {p : Pipeline} {s : Finset RName} {t : Task} :
    t ∈ readySet p s ↔ t ∈ p.tasks ∧ t.ready s = true := by
  simp [readySet, Pipeline.get_ready, List.mem_filter]

theorem mem_toStart {p : Pipeline} {tc : Finset Task} {s : Finset RName} {t : Task} :
    t ∈ toStart p tc s ↔ (t ∈ tc ∧ t ∉ completedSet p s) ∧ t ∈ readySet p s := by
  simp [toStart, Finset.mem_inter, Finset.mem_sdiff]

theorem except_bind_ok {α β : Type} {x : Except TravErr α} {f : α → Except TravErr β} {b : β}
    (h : x >>= f = .ok b) : ∃ a, x = .ok a ∧ f a = .ok b := by
  cases x with
  | error e => simp [Bind.bind, Except.bind] at h
  | ok a => exact ⟨a, rfl, by simpa [Bind.bind, Except.bind] using h⟩

theorem foldlM_subset {step : Finset Task → Task → Except TravErr (Finset Task)}
    (hstep : ∀ a c b, step a c = .ok b → a ⊆ b) :
    ∀ (L : List Task) (a s : Finset Task), L.foldlM step a = .ok s → a ⊆ s := by
  intro L
  induction L with
  | nil =>
    intro a s h
    simp only [List.foldlM_nil, pure, Except.pure, Except.ok.injEq] at h
    exact h ▸ Finset.Subset.refl a
  | cons c cs ih =>
    intro a s h
    rw [List.foldlM_cons] at h
    obtain ⟨b, hb, hrest⟩ := except_bind_ok h
    exact (hstep a c b hb).trans (ih b s hrest)

theorem foldlM_sound {step : Finset Task → Task → Except TravErr (Finset Task)}
    {R : Task → Task → Prop}
    (hstep : ∀ a c b, step a c = .ok b → ∀ u ∈ b, u ∈ a ∨ R c u) :
    ∀ (L : List Task) (a s : Finset Task), L.foldlM step a = .ok s →
      ∀ u ∈ s, u ∈ a ∨ ∃ c ∈ L, R c u := by
  intro L
  induction L with
  | nil =>
    intro a s h u hu
    simp only [List.foldlM_nil, pure, Except.pure, Except.ok.injEq] at h
    exact .inl (h ▸ hu)
  | cons c cs ih =>
    intro a s h u hu
    rw [List.foldlM_cons] at h
    obtain ⟨b, hb, hrest⟩ := except_bind_ok h
    rcases ih b s hrest u hu with hub | ⟨c', hc', hr⟩
    · rcases hstep a c b hb u hub with h1 | h2
      · exact .inl h1
      · exact .inr ⟨c, by simp, h2⟩
    · exact .inr ⟨c', by simp [hc'], hr⟩

theorem foldlM_elem {step : Finset Task → Task → Except TravErr (Finset Task)}
    (hmono : ∀ a c b, step a c = .ok b → a ⊆ b) :
    ∀ (L : List Task) (a s : Finset Task), L.foldlM step a = .ok s →
      ∀ c ∈ L, ∃ a' b, step a' c = .ok b ∧ b ⊆ s := by
  intro L
  induction L with
  | nil => intro a s _ c hc; simp at hc
  | cons c0 cs ih =>
    intro a s h c hc
    rw [List.foldlM_cons] at h
    obtain ⟨b, hb, hrest⟩ := except_bind_ok h
    rcases List.mem_cons.mp hc with rfl | hcs
    · exact ⟨a, b, hb, foldlM_subset hmono cs b s hrest⟩
    · exact ih b s hrest c hcs

theorem foldlM_ok {step : Finset Task → Task → Except TravErr (Finset Task)} :
    ∀ (L : List Task), (∀ c ∈ L, ∀ a, ∃ b, step a c = .ok b) →
      ∀ a, ∃ s, L.foldlM step a = .ok s := by
  intro L
  induction L with
  | nil => intro _ a; exact ⟨a, rfl⟩
  | cons c cs ih =>
    intro h a
    obtain ⟨b, hb⟩ := h c (by simp) a
    obtain ⟨s, hs⟩ := ih (fun c' hc' => h c' (by simp [hc'])) b
    refine ⟨s, ?_⟩
    rw [List.foldlM_cons, hb]
    simpa [Bind.bind, Except.bind] using hs

theorem traverseAux_subset (next : Task → Option (List Task)) :
    ∀ (n : Nat) (t : Task) (acc s : Finset Task),
      traverseAux next n t acc = .ok s → acc ⊆ s := by
  intro n
  induction n with
  | zero => intro t acc s h; simp [traverseAux] at h
  | succ n ih =>
    intro t acc s h
    simp only [traverseAux] at h
    split at h
    · simp at h
    · rename_i ns hn
      exact Finset.subset_union_left.trans
        (foldlM_subset (fun a c b hb => ih c a b hb) ns _ s h)

theorem traverseAux_sound (next : Task → Option (List Task)) :
    ∀ (n : Nat) (t : Task) (acc s : Finset Task),
      traverseAux next n t acc = .ok s → ∀ u ∈ s, u ∈ acc ∨ ReachVia next t u := by
  intro n
  induction n with
  | zero => intro t acc s h; simp [traverseAux] at h
  | succ n ih =>
    intro t acc s h u hu
    simp only [traverseAux] at h
    split at h
    · simp at h
    · rename_i ns hn
      have hstep : ∀ a c b, traverseAux next n c a = .ok b →
          ∀ u ∈ b, u ∈ a ∨ ReachVia next c u := fun a c b hb => ih c a b hb
      rcases foldlM_sound hstep ns _ s h u hu with hacc | ⟨c, hc, hr⟩
      · rcases Finset.mem_union.mp hacc with h1 | h2
        · exact .inl h1
        · exact .inr (Relation.TransGen.single ⟨ns, hn, List.mem_toFinset.mp h2⟩)
      · exact .inr (Relation.TransGen.head ⟨ns, hn, hc⟩ hr)

theorem traverseAux_complete (next : Task → Option (List Task)) :
    ∀ (n : Nat) (t : Task) (acc s : Finset Task),
      traverseAux next n t acc = .ok s → ∀ u, ReachVia next t u → u ∈ s := by
  intro n
  induction n with
  | zero => intro t acc s h; simp [traverseAux] at h
  | succ n ih =>
    intro t acc s h u hr
    simp only [traverseAux] at h
    split at h
    · simp at h
    · rename_i ns hn
      have hmono : ∀ a c b, traverseAux next n c a = .ok b → a ⊆ b :=
        fun a c b hb => traverseAux_subset next n c a b hb
      obtain ⟨c0, hc0, hrtg⟩ := Relation.TransGen.head'_iff.mp hr
      have hcases : nextEdge next t u ∨ ∃ c, nextEdge next t c ∧ ReachVia next c u := by
        rcases Relation.reflTransGen_iff_eq_or_transGen.mp hrtg with rfl | htg
        · exact .inl hc0
        · exact .inr ⟨c0, hc0, htg⟩
      rcases hcases with hedge | ⟨c, hc, hrc⟩
      · obtain ⟨ns', hns', humem⟩ := hedge
        rw [hn] at hns'
        cases hns'
        exact foldlM_subset hmono ns _ s h
          (Finset.mem_union_right _ (List.mem_toFinset.mpr humem))
      · obtain ⟨ns', hns', hcmem⟩ := hc
        rw [hn] at hns'
        cases hns'
        obtain ⟨a', b, hb, hbs⟩ := foldlM_elem hmono ns _ s h c hcmem
        exact hbs (ih c a' b hb u hrc)

theorem traverseAux_term (next : Task → Option (List Task)) (inv : Task → Prop)
    (rank : Task → Nat)
    (hnext : ∀ t, inv t → ∃ ns, next t = some ns ∧ ∀ u ∈ ns, inv u ∧ rank u < rank t) :
    ∀ (n : Nat) (t : Task), inv t → rank t < n →
      ∀ acc, ∃ s, traverseAux next n t acc = .ok s := by
  intro n
  induction n with
  | zero => intro t _ h; omega
  | succ n ih =>
    intro t hinv hrank acc
    obtain ⟨ns, hns, hall⟩ := hnext t hinv
    have hcalls : ∀ c ∈ ns, ∀ a, ∃ b, traverseAux next n c a = .ok b := by
      intro c hc a
      obtain ⟨hinvc, hrc⟩ := hall c hc
      exact ih c hinvc (by omega) a
    obtain ⟨s, hs⟩ := foldlM_ok ns hcalls (acc ∪ ns.toFinset)
    refine ⟨s, ?_⟩
    simp only [traverseAux, hns]
    exact hs

theorem traverseAux_char (next : Task → Option (List Task)) {n : Nat} {t : Task}
    {s : Finset Task} (h : traverseAux next n t ∅ = .ok s) :
    ∀ u, u ∈ s ↔ ReachVia next t u := by
  intro u
  constructor
  · intro hu
    rcases traverseAux_sound next n t ∅ s h u hu with h0 | hr
    · simp at h0
    · exact hr
  · exact traverseAux_complete next n t ∅ s h u

theorem saveZipped_ok {D : Type} :
    ∀ (Z : List (Resource D × D)) (ctx : Context) (fs : FS D),
      (∀ rv ∈ Z, rv.1.assert_integrity rv.2 = true) →
      (∀ rv ∈ Z, (formatLoc rv.1.loc ctx).isSome) →
      saveZipped Z ctx fs = (writeListFS Z ctx fs, none) := by
  intro Z
  induction Z with
  | nil => intro ctx fs _ _; rfl
  | cons rv rest ih =>
    intro ctx fs hA hL
    obtain ⟨r, v⟩ := rv
    have hint : r.assert_integrity v = true := hA (r, v) (by simp)
    obtain ⟨path, hpath⟩ := Option.isSome_iff_exists.mp (hL (r, v) (by simp))
    have hsave : r.saveOp v ctx fs = (fsWrite fs path v, none) := by
      simp [Resource.saveOp, hint, hpath]
    rw [saveZipped, writeListFS, hpath]
    rw [hsave]
    exact ih ctx (fsWrite fs path v) (fun x hx => hA x (by simp [hx]))
      (fun x hx => hL x (by simp [hx]))

theorem undoTasks_mem :
    ∀ (L : List Task) (s : Finset RName) (r : RName),
      r ∈ undoTasks L s ↔ r ∈ s ∧ ∀ t ∈ L, r ∉ t.output := by
  intro L
  induction L with
  | nil => intro s r; simp [undoTasks]
  | cons t rest ih =>
    intro s r
    have : undoTasks (t :: rest) s = undoTasks rest (t.undo s) := rfl
    rw [this, ih]
    simp only [Task.undo, Finset.mem_sdiff, List.mem_toFinset, List.mem_cons]
    constructor
    · rintro ⟨⟨hs, hnt⟩, hrest⟩
      exact ⟨hs, fun u hu => by rcases hu with rfl | hu; exact hnt; exact hrest u hu⟩
    · rintro ⟨hs, hall⟩
      exact ⟨⟨hs, hall t (.inl rfl)⟩, fun u hu => hall u (.inr hu)⟩

theorem undoTasksSet_mem {ts : Finset Task} {s : Finset RName} {r : RName} :
    r ∈ undoTasksSet ts s ↔ r ∈ s ∧ ∀ t ∈ ts, r ∉ t.output := by
  simp [undoTasksSet, Finset.mem_sdiff, Finset.mem_biUnion, List.mem_toFinset]

theorem undoTasksSet_eq_undoTasks {L : List Task} {ts : Finset Task} (h : L.toFinset = ts)
    (s : Finset RName) : undoTasks L s = undoTasksSet ts s := by
  ext r
  rw [undoTasks_mem, undoTasksSet_mem]
  subst h
  simp [List.mem_toFinset]

theorem runStep_finished_iff {p : Pipeline} {tc : Finset Task} {s : Finset RName} :
    runStep p tc s = .finished ↔ completedSet p s = tc := by
  unfold runStep
  split
  · rename_i h
    simp [h]
  · rename_i h
    split <;> simp [h]

/-- Claim C1 counterexample: in the two-task pipeline `exP` with both
artifacts present, a run targeting task a has closure `{exA}` (its
upstream set is empty), every task of the closure is complete, yet the
loop iteration does not terminate the run: `get_completed` ranges over
the whole pipeline, so the break test `completed == to_complete` fails,
`to_start` is empty, and the sequential iteration raises `IndexError`
from `tuple(to_start)[0]`. -/
theorem run_loop_counterexample :
    exP.get_upstream 1 exA ∅ = .ok ∅
    ∧ exA.complete exS = true
    ∧ runStep exP {exA} exS = StepOutcome.indexError := by
  refine ⟨by decide, by decide, by decide⟩

/-- Claim C1 (amended): each iteration computes the completed set over
all tasks of the pipeline, not just over the closure, and the run loop
exits successfully exactly when that full completed set equals
`toComplete`, i.e. exactly when every task of the closure is complete
and no task outside the closure is complete. -/
theorem run_loop_exit_iff (p : Pipeline) (tc : Finset Task) (s : Finset RName)
    (htc : ∀ t ∈ tc, t ∈ p.tasks) :
    runStep p tc s = .finished ↔
      ((∀ t ∈ tc, t.complete s = true) ∧ ∀ t ∈ p.tasks, t.complete s = true → t ∈ tc) := by
  rw [runStep_finished_iff]
  constructor
  · rintro rfl
    exact ⟨fun t ht => (mem_completedSet.mp ht).2,
      fun t ht hc => mem_completedSet.mpr ⟨ht, hc⟩⟩
  · rintro ⟨h1, h2⟩
    ext t
    rw [mem_completedSet]
    exact ⟨fun ht => h2 t ht.1 ht.2, fun ht => ⟨htc t ht, h1 t ht⟩⟩

/-- Witness for `run_loop_exit_iff`: the full-pipeline run over `exP`
with both artifacts present does exit. -/
theorem run_loop_exit_iff_witness :
    runStep exP {exA, exB} exS = StepOutcome.finished :=
  (run_loop_exit_iff exP {exA, exB} exS (by decide)).mpr (by decide)

/-- Claim C10: `get_producer` on a pipeline with no tasks reaches the
`raise` with the loop variable never bound (`UnboundLocalError`), and
with tasks but no producer it raises a `ValueError` whose message
interpolates the name of the last task iterated, not the unresolved
resource. -/
theorem get_producer_error_shape (p : Pipeline) (r : RName)
    (hnone : producerFind p r = none) :
    (p.tasks = [] → p.get_producer r = ProducerResult.nameError)
    ∧ ∀ tlast, p.tasks.getLast? = some tlast →
        p.get_producer r = ProducerResult.valueError tlast.name := by
  constructor
  · intro hnil
    simp [Pipeline.get_producer, hnone, hnil]
  · intro tlast hlast
    simp [Pipeline.get_producer, hnone, hlast]

/-- Witness for `get_producer_error_shape` at the empty pipeline and at
`exP` with an unproduced resource name. -/
theorem get_producer_error_witness :
    (Pipeline.mk []).get_producer "x" = ProducerResult.nameError
    ∧ exP.get_producer "zzz" = ProducerResult.valueError "b" :=
  ⟨(get_producer_error_shape (Pipeline.mk []) "x" (by decide)).1 rfl,
   (get_producer_error_shape exP "zzz" (by decide)).2 exB (by decide)⟩

/-- Claim C4: a task is selected for execution (sequential mode) or for
submission (parallel mode) only when it lies in the ready set, i.e. only
when every one of its input resources exists at that moment. -/
theorem task_start_requires_inputs (p : Pipeline) (tc : Finset Task) (s : Finset RName)
    (submitted : Finset Task) (t : Task)
    (h : t ∈ toStart p tc s ∨ t ∈ toSubmit p tc s submitted) :
    ∀ r ∈ t.input, r ∈ s := by
  have ht : t ∈ toStart p tc s := by
    rcases h with h | h
    · exact h
    · exact (Finset.mem_sdiff.mp h).1
  exact ready_iff.mp (mem_readySet.mp (mem_toStart.mp ht).2).2

/-- Witness for `task_start_requires_inputs`: in the fetch-clean
pipeline with only the raw artifact present, clean is selected and its
input exists. -/
theorem task_start_requires_inputs_witness :
    acC ∈ toStart acP {acF, acC} {"raw"}
    ∧ "raw" ∈ ({"raw"} : Finset RName) :=
  ⟨by decide,
   task_start_requires_inputs acP {acF, acC} {"raw"} ∅ acC (Or.inl (by decide))
     "raw" (by decide)⟩

/-- Claim C8: a task with no declared outputs is complete in every
state (the universal over its outputs is vacuous), is always counted
among the completed tasks of the run loop, and is never selected for
execution. -/
theorem no_output_task_always_complete (t : Task) (ht : t.output = [])
    (p : Pipeline) (tc : Finset Task) (s : Finset RName) :
    t.complete s = true
    ∧ (t ∈ p.tasks → t ∈ completedSet p s)
    ∧ t ∉ toStart p tc s := by
  have hc : t.complete s = true := by simp [Task.complete, ht]
  refine ⟨hc, fun htp => mem_completedSet.mpr ⟨htp, hc⟩, fun hmem => ?_⟩
  have h1 := mem_toStart.mp hmem
  exact h1.1.2 (mem_completedSet.mpr ⟨(mem_readySet.mp h1.2).1, hc⟩)

/-- Witness for `no_output_task_always_complete` at the terminal
consumer task. -/
theorem no_output_task_witness :
    termT.complete {"x"} = true
    ∧ (termT ∈ acP.tasks → termT ∈ completedSet acP {"x"})
    ∧ termT ∉ toStart acP ∅ {"x"} :=
  no_output_task_always_complete termT rfl acP ∅ {"x"}

/-- Claim C6 counterexample: a first call of `add_input` declaring an
empty input set succeeds and leaves the input empty, so a second call
also succeeds (the guard tests set truthiness, not that a declaration
happened); `add_input` can thus succeed twice on the same task. -/
theorem add_input_twice_counterexample :
    ((Task.mk "f" [] []).add_input []).2 = none
    ∧ (((Task.mk "f" [] []).add_input []).1.add_input ["r"]).2 = none
    ∧ (((Task.mk "f" [] []).add_input []).1.add_input ["r"]).1.input = ["r"] := by
  refine ⟨by decide, by decide, by decide⟩

/-- Claim C6 (amended): `add_input` raises exactly when the current
input set is non-empty (and then leaves the task unchanged), and
`add_output` raises exactly when the current output set is non-empty
(and then leaves the task unchanged); a repeated call therefore raises
exactly when the earlier declaration was non-empty. -/
theorem add_declaration_once (t : Task) (inp out : List RName) :
    ((t.add_input inp).2.isSome ↔ t.input ≠ [])
    ∧ ((t.add_input inp).2.isSome → (t.add_input inp).1 = t)
    ∧ ((t.add_output out).2.isSome ↔ t.output ≠ [])
    ∧ ((t.add_output out).2.isSome → (t.add_output out).1 = t) := by
  unfold Task.add_input Task.add_output
  by_cases h1 : t.input = [] <;> by_cases h2 : t.output = [] <;> simp [h1, h2]

/-- Witness for `add_declaration_once`: a task with a non-empty input
declaration rejects a second input declaration. -/
theorem add_declaration_once_witness :
    ((Task.mk "g" ["x"] []).add_input ["y"]).2.isSome :=
  (add_declaration_once (Task.mk "g" ["x"] []) ["y"] []).1.mpr (by decide)

theorem cyc_up_next_a : upNext cycP cycA = some [cycB] := by decide

theorem cyc_up_next_b : upNext cycP cycB = some [cycA] := by decide

theorem cyc_up_fuelOut :
    ∀ n acc, traverseAux (upNext cycP) n cycA acc = .error .fuelOut
      ∧ traverseAux (upNext cycP) n cycB acc = .error .fuelOut := by
  intro n
  induction n with
  | zero => intro acc; exact ⟨rfl, rfl⟩
  | succ n ih =>
    intro acc
    constructor
    · show traverseAux (upNext cycP) (n + 1) cycA acc = .error .fuelOut
      simp only [traverseAux, cyc_up_next_a]
      rw [List.foldlM_cons, (ih _).2]
      rfl
    · show traverseAux (upNext cycP) (n + 1) cycB acc = .error .fuelOut
      simp only [traverseAux, cyc_up_next_b]
      rw [List.foldlM_cons, (ih _).1]
      rfl

/-- Claim C3 counterexample: `get_upstream` never consults the visited
set before re-expanding a producer, so on the two-task producer cycle
`cycP` the recursion never returns: no recursion depth suffices. -/
theorem get_upstream_cycle_diverges : ¬ UpstreamTerminates cycP cycA := by
  rintro ⟨n, s, h⟩
  rw [Pipeline.get_upstream, (cyc_up_fuelOut n ∅).1] at h
  exact absurd h (by simp)

/-- Claim C3 (amended): the traversals do terminate on acyclic graphs
(every recursion step moves to a strictly smaller rank, so fuel one more
than the rank of the start task suffices), for every starting visited
set; on a cyclic graph the recursion does not terminate, because the
visited set is an accumulator only and is never consulted before
re-expansion (see the counterexample). -/
theorem traversals_terminate_on_acyclic (p : Pipeline) (rankU rankD : Task → Nat)
    (hU : upRankOk p rankU = true) (hD : downRankOk p rankD = true) :
    ∀ t ∈ p.tasks, ∀ acc,
      (∃ s, p.get_upstream (rankU t + 1) t acc = .ok s)
      ∧ (∃ s, p.get_downstream (rankD t + 1) t acc = .ok s) := by
  intro t ht acc
  have hUnext : ∀ u, u ∈ p.tasks →
      ∃ ns, upNext p u = some ns ∧ ∀ v ∈ ns, v ∈ p.tasks ∧ rankU v < rankU u := by
    intro u hu
    have hall := List.all_eq_true.mp hU u hu
    split at hall
    · simp at hall
    · rename_i ns hns
      refine ⟨ns, hns, fun v hv => ?_⟩
      have := List.all_eq_true.mp hall v hv
      simpa using this
  have hDnext : ∀ u, u ∈ p.tasks →
      ∃ ns, downNext p u = some ns ∧ ∀ v ∈ ns, v ∈ p.tasks ∧ rankD v < rankD u := by
    intro u hu
    have hall := List.all_eq_true.mp hD u hu
    refine ⟨p.consumersOfOutputs u, rfl, fun v hv => ?_⟩
    have := List.all_eq_true.mp hall v hv
    simpa using this
  exact ⟨traverseAux_term (upNext p) (· ∈ p.tasks) rankU hUnext (rankU t + 1) t ht
      (by omega) acc,
    traverseAux_term (downNext p) (· ∈ p.tasks) rankD hDnext (rankD t + 1) t ht
      (by omega) acc⟩

/-- Witness for `traversals_terminate_on_acyclic` on the fetch-clean
pipeline with explicit rank certificates. -/
theorem traversals_terminate_witness :
    (∃ s, acP.get_upstream (acRankU acC + 1) acC ∅ = .ok s)
    ∧ (∃ s, acP.get_downstream (acRankD acC + 1) acC ∅ = .ok s) :=
  traversals_terminate_on_acyclic acP acRankU acRankD (by decide) (by decide)
    acC (by decide) ∅

/-- Claim C5: whatever undo target is requested (a single task, a task
with its downstream cone, or everything), the artifacts after the undo
are exactly the previously existing artifacts minus the outputs of the
selected tasks as described by the spec: existing outputs of selected
tasks are deleted, and no artifact outside those outputs is touched. -/
theorem undo_scope (p : Pipeline) (task : Option String) (downstream : Bool)
    (fuel : Nat) (s s' : Finset RName)
    (h : p.undoRun task downstream fuel s = .ok s') :
    ∀ r, r ∈ s' ↔ r ∈ s ∧ ∀ t, t ∈ specUndoSet p task downstream → r ∉ t.output := by
  intro r
  cases task with
  | none =>
    simp only [Pipeline.undoRun, Except.ok.injEq] at h
    subst h
    rw [undoTasks_mem]
    simp [specUndoSet]
  | some x =>
    simp only [Pipeline.undoRun] at h
    split at h
    · exact absurd h (by simp)
    · rename_i ti hlk
      split at h
      · rename_i hd
        split at h
        · rename_i ds hds
          simp only [Except.ok.injEq] at h
          subst h
          rw [undoTasksSet_mem]
          have hchar := traverseAux_char (downNext p) (n := fuel) (t := ti) (s := ds) hds
          simp only [specUndoSet, hlk, if_pos hd]
          constructor
          · rintro ⟨hs, hall⟩
            refine ⟨hs, fun t htmem => ?_⟩
            rcases Set.mem_insert_iff.mp htmem with rfl | hreach
            · exact hall t (Finset.mem_insert_self _ _)
            · exact hall t (Finset.mem_insert.mpr (.inr ((hchar t).mpr hreach)))
          · rintro ⟨hs, hall⟩
            refine ⟨hs, fun t htmem => ?_⟩
            rcases Finset.mem_insert.mp htmem with rfl | hmem
            · exact hall t (Set.mem_insert _ _)
            · exact hall t (Set.mem_insert_iff.mpr (.inr ((hchar t).mp hmem)))
        · exact absurd h (by simp)
      · rename_i hd
        simp only [Except.ok.injEq] at h
        subst h
        rw [undoTasks_mem]
        simp only [specUndoSet, hlk, if_neg hd]
        simp [Set.mem_singleton_iff]

/-- Witness for `undo_scope`: undoing fetch with the downstream flag in
the fetch-clean pipeline deletes both artifacts; instantiated at the raw
artifact. -/
theorem undo_scope_witness :
    acP.undoRun (some "fetch") true 3 {"raw", "prepared"} = .ok ∅
    ∧ ("raw" ∈ (∅ : Finset RName) ↔
        "raw" ∈ ({"raw", "prepared"} : Finset RName)
        ∧ ∀ t, t ∈ specUndoSet acP (some "fetch") true → "raw" ∉ t.output) :=
  ⟨by decide,
   undo_scope acP (some "fetch") true 3 {"raw", "prepared"} ∅ (by decide) "raw"⟩

/-- Claim C9: with the shared mutable default visited set, a second
top-level `get_upstream` call returns a superset of the result of the
first call: every task the first call accumulated, in particular
everything upstream of the first task, is contained in the result of
the second call, however unrelated the two tasks are. -/
theorem default_visited_leaks (p : Pipeline) (fuel : Nat) (t1 t2 : Task)
    (r1 r2 : Finset Task)
    (h : get_upstream_default_twice p fuel t1 t2 = .ok (r1, r2)) :
    r1 ⊆ r2 ∧ ∀ u, ReachVia (upNext p) t1 u → u ∈ r2 := by
  unfold get_upstream_default_twice at h
  split at h
  · exact absurd h (by simp)
  · rename_i r1' h1
    split at h
    · exact absurd h (by simp)
    · rename_i r2' h2
      simp only [Except.ok.injEq, Prod.mk.injEq] at h
      obtain ⟨rfl, rfl⟩ := h
      have hsub : r1' ⊆ r2' := traverseAux_subset (upNext p) fuel t2 r1' r2' h2
      exact ⟨hsub,
        fun u hu => hsub (traverseAux_complete (upNext p) fuel t1 ∅ r1' h1 u hu)⟩

/-- Witness for `default_visited_leaks`: the second default-argument
call on the unrelated task t2 still returns pa, the producer feeding
t1 only. -/
theorem default_visited_leaks_witness :
    get_upstream_default_twice w9P 3 w9t1 w9t2 = .ok ({w9pa}, {w9pa, w9pb})
    ∧ ({w9pa} : Finset Task) ⊆ {w9pa, w9pb} :=
  ⟨by decide,
   (default_visited_leaks w9P 3 w9t1 w9t2 {w9pa} {w9pa, w9pb} (by decide)).1⟩

/-- Claim C7: `_save` runs the integrity assertions before resolving the
path and writing, so when an assertion fails the store is unchanged and
the call raises; `_load` runs them after reading and before returning,
so data returned to a consumer satisfies every declared assertion. -/
theorem resource_validation_guard {D : Type} (r : Resource D) (data : D) (ctx : Context)
    (fs : FS D) :
    ((∃ a ∈ r.assertions, a data = false) →
      r.saveOp data ctx fs = (fs, some RErr.assertionFailed))
    ∧ ∀ d, r.loadOp ctx fs = .ok d → ∀ a ∈ r.assertions, a d = true := by
  constructor
  · rintro ⟨a, ha, hfalse⟩
    have hint : r.assert_integrity data = false := by
      simp only [Resource.assert_integrity, List.all_eq_false]
      exact ⟨a, ha, by simp [hfalse]⟩
    simp [Resource.saveOp, hint]
  · intro d hd a ha
    unfold Resource.loadOp at hd
    split at hd
    · exact absurd hd (by simp)
    · split at hd
      · exact absurd hd (by simp)
      · rename_i data0 hread
        split at hd
        · exact absurd hd (by simp)
        · rename_i hint
          simp only [Except.ok.injEq] at hd
          subst hd
          have htrue : r.assert_integrity data0 = true := by
            cases hbool : r.assert_integrity data0
            · exact absurd hbool hint
            · rfl
          simp only [Resource.assert_integrity, List.all_eq_true] at htrue
          exact htrue a ha

/-- Witness for `resource_validation_guard`: saving data violating the
assertion leaves the empty store unchanged and raises. -/
theorem resource_validation_guard_witness :
    rFail.saveOp 1 [] [] = ([], some RErr.assertionFailed) :=
  (resource_validation_guard rFail 1 [] []).1
    ⟨fun d => decide (d = 0), by simp [rFail], by decide⟩

/-- Claim C2 counterexample: a task declared with two outputs whose
function returns the single non-tuple value 7 does not fail: the save
loop zips the two outputs with the one-element result tuple, saves the
single value to the first output, raises nothing, and never saves the
second output. -/
theorem output_arity_counterexample :
    outputWrapperRun [raOut, rbOut] (PyRet.single 7) [] [] = ([("a.csv", 7)], none) := by
  rfl

/-- Claim C2 (amended): when the number of returned values differs from
the number of declared outputs, no output-arity error is raised:
`zip` silently truncates to the shorter of the two lists, the run saves
exactly those pairs (given that integrity assertions pass and locations
resolve) and continues normally. -/
theorem output_arity_truncates {D : Type} (outputs : List (Resource D)) (ret : PyRet D)
    (ctx : Context) (fs : FS D)
    (hA : ∀ r ∈ outputs, ∀ a ∈ r.assertions, ∀ d, a d = true)
    (hL : ∀ r ∈ outputs, (formatLoc r.loc ctx).isSome) :
    outputWrapperRun outputs ret ctx fs
        = (writeListFS (outputs.zip (wrapResults ret)) ctx fs, none)
    ∧ (outputs.zip (wrapResults ret)).length
        = min outputs.length (wrapResults ret).length := by
  refine ⟨?_, List.length_zip _ _⟩
  apply saveZipped_ok
  · intro rv hrv
    have hr : rv.1 ∈ outputs := by
      obtain ⟨r, v⟩ := rv
      exact (List.of_mem_zip hrv).1
    simp only [Resource.assert_integrity, List.all_eq_true]
    intro a ha
    simp [hA rv.1 hr a ha rv.2]
  · intro rv hrv
    have hr : rv.1 ∈ outputs := by
      obtain ⟨r, v⟩ := rv
      exact (List.of_mem_zip hrv).1
    exact hL rv.1 hr

/-- Witness for `output_arity_truncates` at the concrete two-output,
one-result task. -/
theorem output_arity_truncates_witness :
    outputWrapperRun [raOut, rbOut] (PyRet.single 7) [] []
      = (writeListFS ([raOut, rbOut].zip (wrapResults (PyRet.single 7))) [] [], none) :=
  (output_arity_truncates [raOut, rbOut] (PyRet.single 7) [] []
    (by intro r hr; fin_cases hr <;> simp [raOut, rbOut])
    (by intro r hr; fin_cases hr <;> decide)).1

end Dalymi
